import Mathlib

/-!
Shallow embedding of the DDPM diffusion schedule and sampler from
`AutoEncoder_Example.ipynb` (classes `DDPM`, `UNet`, and the module-level
schedule constants).  Tensors indexed by timestep are embedded as
`List ℝ` built by mapping over `List.range (T+1)` (the `torch.arange`
pipeline); batch tensors are embedded as functions `ℕ → ℝ` from the batch
index (all operations involved are elementwise or broadcast).
-/

namespace DGNN

/-- `torch.cumsum` along a 1-d tensor: running partial sums. -/
def cumsum : List ℝ → List ℝ
  | [] => []
  | x :: xs => x :: (cumsum xs).map (fun y => x + y)

/-- `beta_t = (beta2 - beta1) * torch.arange(0, T + 1) / T + beta1`. -/
noncomputable def beta_t (T : ℕ) (beta1 beta2 : ℝ) : List ℝ :=
  (List.range (T + 1)).map (fun t : ℕ => (beta2 - beta1) * (t : ℝ) / (T : ℝ) + beta1)

/-- `alpha_t = 1 - beta_t`. -/
noncomputable def alpha_t (T : ℕ) (beta1 beta2 : ℝ) : List ℝ :=
  (beta_t T beta1 beta2).map (fun b => 1 - b)

/-- `log_alpha_t = torch.log(alpha_t)`. -/
noncomputable def log_alpha_t (T : ℕ) (beta1 beta2 : ℝ) : List ℝ :=
  (alpha_t T beta1 beta2).map Real.log

/-- `alphabar_t = torch.cumsum(log_alpha_t, dim=0).exp()`. -/
noncomputable def alphabar_t (T : ℕ) (beta1 beta2 : ℝ) : List ℝ :=
  (cumsum (log_alpha_t T beta1 beta2)).map Real.exp

/-- `sqrtab = torch.sqrt(alphabar_t)` (the `.view(-1,1,1,1)` reshape is
broadcast bookkeeping with no effect on the stored values). -/
noncomputable def sqrtab (T : ℕ) (beta1 beta2 : ℝ) : List ℝ :=
  (alphabar_t T beta1 beta2).map Real.sqrt

/-- `sqrtmab = torch.sqrt(1 - alphabar_t)`. -/
noncomputable def sqrtmab (T : ℕ) (beta1 beta2 : ℝ) : List ℝ :=
  (alphabar_t T beta1 beta2).map (fun a => Real.sqrt (1 - a))

/-- `oneover_sqrta = 1 / torch.sqrt(alpha_t)`. -/
noncomputable def oneover_sqrta (T : ℕ) (beta1 beta2 : ℝ) : List ℝ :=
  (alpha_t T beta1 beta2).map (fun a => 1 / Real.sqrt a)

/-- `mab_over_sqrtmab_inv = (1 - alpha_t) / sqrtmab.squeeze()`, elementwise
over the two length-`T+1` tensors. -/
noncomputable def mab_over_sqrtmab_inv (T : ℕ) (beta1 beta2 : ℝ) : List ℝ :=
  List.zipWith (fun a m => (1 - a) / m) (alpha_t T beta1 beta2) (sqrtmab T beta1 beta2)

/-- `sigma_t = torch.sqrt(beta_t)`. -/
noncomputable def sigma_t (T : ℕ) (beta1 beta2 : ℝ) : List ℝ :=
  (beta_t T beta1 beta2).map Real.sqrt

/-- The full set of module-level schedule constants, bundled as one record
(the spec's `NoiseSchedule`); each field is computed exactly as in the source
cell, directly from the three hyperparameters, with no validation step. -/
structure NoiseSchedule where
  beta : List ℝ
  alpha : List ℝ
  logAlpha : List ℝ
  alphabar : List ℝ
  sqab : List ℝ
  sqmab : List ℝ
  oneoverSqa : List ℝ
  mabOverSqmab : List ℝ
  sigma : List ℝ

/-- Construct the schedule from `(T, beta1, beta2)` exactly as the source
cell does: every field is computed unconditionally. -/
noncomputable def mkSchedule (T : ℕ) (beta1 beta2 : ℝ) : NoiseSchedule :=
  { beta := beta_t T beta1 beta2
    alpha := alpha_t T beta1 beta2
    logAlpha := log_alpha_t T beta1 beta2
    alphabar := alphabar_t T beta1 beta2
    sqab := sqrtab T beta1 beta2
    sqmab := sqrtmab T beta1 beta2
    oneoverSqa := oneover_sqrta T beta1 beta2
    mabOverSqmab := mab_over_sqrtmab_inv T beta1 beta2
    sigma := sigma_t T beta1 beta2 }

/-! Closed-form counterparts used to state the mathematical claims;
these are the spec-level formulas the list pipeline is compared against. -/

/-- Closed form of entry `t` of `beta_t`. -/
noncomputable def betaF (T : ℕ) (beta1 beta2 : ℝ) (t : ℕ) : ℝ :=
  (beta2 - beta1) * (t : ℝ) / (T : ℝ) + beta1

/-- Closed form of entry `t` of `alpha_t`. -/
noncomputable def alphaF (T : ℕ) (beta1 beta2 : ℝ) (t : ℕ) : ℝ :=
  1 - betaF T beta1 beta2 t

/-- The cumulative product `∏_{j ≤ t} alpha_j`: the mathematical value the
`cumsum`-of-`log`-then-`exp` pipeline is meant to compute. -/
noncomputable def alphabarF (T : ℕ) (beta1 beta2 : ℝ) (t : ℕ) : ℝ :=
  ((List.range (t + 1)).map (alphaF T beta1 beta2)).prod

/-- Valid schedule hyperparameters as stated by the spec. -/
def ValidConfig (T : ℕ) (beta1 beta2 : ℝ) : Prop :=
  1 ≤ T ∧ 0 < beta1 ∧ beta1 < beta2 ∧ beta2 < 1

theorem length_cumsum (l : List ℝ) : (cumsum l).length = l.length := by
  induction l with
  | nil => rfl
  | cons x xs ih => simp [cumsum, ih]

theorem cumsum_append_singleton (l : List ℝ) (x : ℝ) :
    cumsum (l ++ [x]) = cumsum l ++ [l.sum + x] := by
  induction l with
  | nil => simp [cumsum]
  | cons a l ih =>
      have hcons : (a :: l) ++ [x] = a :: (l ++ [x]) := rfl
      rw [hcons]
      show a :: (cumsum (l ++ [x])).map (fun y => a + y) = _
      rw [ih]
      simp [cumsum, List.map_append, List.sum_cons, add_assoc]

theorem cumsum_map_range (f : ℕ → ℝ) (n : ℕ) :
    cumsum ((List.range n).map f) =
      (List.range n).map (fun k => ((List.range (k + 1)).map f).sum) := by
  induction n with
  | zero => rfl
  | succ n ih =>
      rw [List.range_succ, List.map_append, List.map_append, List.map_singleton,
        List.map_singleton, cumsum_append_singleton, ih]
      congr 1
      rw [List.range_succ, List.map_append, List.map_singleton, List.sum_append,
        List.sum_singleton]

theorem exp_sum_log_map_range (f : ℕ → ℝ) (n : ℕ) (hf : ∀ j < n, 0 < f j) :
    Real.exp (((List.range n).map (fun j => Real.log (f j))).sum) =
      ((List.range n).map f).prod := by
  induction n with
  | zero => simp
  | succ n ih =>
      rw [List.range_succ, List.map_append, List.map_append, List.map_singleton,
        List.map_singleton, List.sum_append, List.prod_append, List.sum_singleton,
        List.prod_singleton, Real.exp_add,
        ih (fun j hj => hf j (Nat.lt_succ_of_lt hj)),
        Real.exp_log (hf n (Nat.lt_succ_self n))]

theorem zipWith_map_same {α β γ δ : Type} (f : β → γ → δ) (g : α → β) (h : α → γ)
    (l : List α) :
    List.zipWith f (l.map g) (l.map h) = l.map (fun x => f (g x) (h x)) := by
  induction l with
  | nil => rfl
  | cons a l ih => simp [ih]

/-! Positivity and range facts for the closed forms under a valid config. -/

theorem betaF_mem (T : ℕ) (b1 b2 : ℝ) (t : ℕ) (hT : 1 ≤ T) (h12 : b1 < b2)
    (ht : t ≤ T) : b1 ≤ betaF T b1 b2 t ∧ betaF T b1 b2 t ≤ b2 := by
  have hTpos : (0 : ℝ) < (T : ℝ) := by exact_mod_cast hT
  have htn : (0 : ℝ) ≤ (t : ℝ) := Nat.cast_nonneg t
  have ht' : (t : ℝ) ≤ (T : ℝ) := Nat.cast_le.mpr ht
  constructor
  · have key : 0 ≤ (b2 - b1) * (t : ℝ) / (T : ℝ) :=
      div_nonneg (mul_nonneg (sub_nonneg.mpr h12.le) htn) hTpos.le
    simp only [betaF]
    linarith
  · have key : (b2 - b1) * (t : ℝ) / (T : ℝ) ≤ b2 - b1 := by
      rw [div_le_iff₀ hTpos]
      exact mul_le_mul_of_nonneg_left ht' (sub_nonneg.mpr h12.le)
    simp only [betaF]
    linarith

theorem alphaF_mem (T : ℕ) (b1 b2 : ℝ) (t : ℕ) (hc : ValidConfig T b1 b2)
    (ht : t ≤ T) : 0 < alphaF T b1 b2 t ∧ alphaF T b1 b2 t < 1 := by
  obtain ⟨hT, h1, h12, h2⟩ := hc
  obtain ⟨hlo, hhi⟩ := betaF_mem T b1 b2 t hT h12 ht
  constructor
  · simp only [alphaF]; linarith
  · simp only [alphaF]; linarith

theorem alphabarF_succ (T : ℕ) (b1 b2 : ℝ) (t : ℕ) :
    alphabarF T b1 b2 (t + 1) = alphabarF T b1 b2 t * alphaF T b1 b2 (t + 1) := by
  simp only [alphabarF]
  rw [List.range_succ, List.map_append, List.map_singleton, List.prod_append,
    List.prod_singleton]

theorem alphabarF_pos (T : ℕ) (b1 b2 : ℝ) (t : ℕ) (hc : ValidConfig T b1 b2)
    (ht : t ≤ T) : 0 < alphabarF T b1 b2 t := by
  induction t with
  | zero =>
      simp only [alphabarF, List.range_succ, List.range_zero, List.nil_append,
        List.map_cons, List.map_nil, List.prod_cons, List.prod_nil, mul_one]
      exact (alphaF_mem T b1 b2 0 hc (Nat.zero_le T)).1
  | succ t ih =>
      rw [alphabarF_succ]
      exact mul_pos (ih (Nat.le_of_succ_le ht)) (alphaF_mem T b1 b2 (t + 1) hc ht).1

theorem alphabarF_lt_one (T : ℕ) (b1 b2 : ℝ) (t : ℕ) (hc : ValidConfig T b1 b2)
    (ht : t ≤ T) : alphabarF T b1 b2 t < 1 := by
  induction t with
  | zero =>
      simp only [alphabarF, List.range_succ, List.range_zero, List.nil_append,
        List.map_cons, List.map_nil, List.prod_cons, List.prod_nil, mul_one]
      exact (alphaF_mem T b1 b2 0 hc (Nat.zero_le T)).2
  | succ t ih =>
      rw [alphabarF_succ]
      have h1 := ih (Nat.le_of_succ_le ht)
      have h2 := alphabarF_pos T b1 b2 t hc (Nat.le_of_succ_le ht)
      have h3 := alphaF_mem T b1 b2 (t + 1) hc ht
      nlinarith [h3.1, h3.2]

theorem alphabarF_succ_le (T : ℕ) (b1 b2 : ℝ) (t : ℕ) (hc : ValidConfig T b1 b2)
    (ht : t + 1 ≤ T) : alphabarF T b1 b2 (t + 1) ≤ alphabarF T b1 b2 t := by
  rw [alphabarF_succ]
  have hp := alphabarF_pos T b1 b2 t hc (Nat.le_of_succ_le ht)
  have ha := alphaF_mem T b1 b2 (t + 1) hc ht
  nlinarith [ha.1, ha.2]

theorem alphabarF_antitone (T : ℕ) (b1 b2 : ℝ) (i j : ℕ) (hc : ValidConfig T b1 b2)
    (hij : i ≤ j) (hj : j ≤ T) : alphabarF T b1 b2 j ≤ alphabarF T b1 b2 i := by
  induction j with
  | zero =>
      have : i = 0 := Nat.le_zero.mp hij
      simp [this]
  | succ j ih =>
      rcases Nat.lt_or_ge i (j + 1) with h | h
      · have hij' : i ≤ j := Nat.lt_succ_iff.mp h
        exact le_trans (alphabarF_succ_le T b1 b2 j hc hj)
          (ih hij' (Nat.le_of_succ_le hj))
      · have : i = j + 1 := Nat.le_antisymm hij h
        simp [this]

/-! Correspondence between the tensor pipeline and the closed forms. -/

theorem beta_t_eq_map (T : ℕ) (b1 b2 : ℝ) :
    beta_t T b1 b2 = (List.range (T + 1)).map (betaF T b1 b2) := by
  rw [beta_t]
  rfl

theorem alpha_t_eq_map (T : ℕ) (b1 b2 : ℝ) :
    alpha_t T b1 b2 = (List.range (T + 1)).map (alphaF T b1 b2) := by
  rw [alpha_t, beta_t_eq_map, List.map_map]
  rfl

theorem alphabar_t_eq_map (T : ℕ) (b1 b2 : ℝ) (hc : ValidConfig T b1 b2) :
    alphabar_t T b1 b2 = (List.range (T + 1)).map (alphabarF T b1 b2) := by
  rw [alphabar_t, log_alpha_t, alpha_t_eq_map, List.map_map]
  have hlog : (fun t => Real.log (alphaF T b1 b2 t)) = Real.log ∘ alphaF T b1 b2 := rfl
  rw [show Real.log ∘ alphaF T b1 b2 = fun t => Real.log (alphaF T b1 b2 t) from rfl]
  rw [cumsum_map_range, List.map_map]
  apply List.map_congr_left
  intro k hk
  have hkT : k ≤ T := Nat.lt_succ_iff.mp (List.mem_range.mp hk)
  show Real.exp (((List.range (k + 1)).map (fun j => Real.log (alphaF T b1 b2 j))).sum)
      = alphabarF T b1 b2 k
  rw [exp_sum_log_map_range]
  · rfl
  · intro j hj
    exact (alphaF_mem T b1 b2 j hc (le_trans (Nat.lt_succ_iff.mp hj) hkT)).1

theorem getD_map_range (f : ℕ → ℝ) (n t : ℕ) (h : t < n) :
    ((List.range n).map f).getD t 0 = f t := by
  have hlen : t < ((List.range n).map f).length := by
    simpa using h
  rw [List.getD_eq_getElem _ _ hlen, List.getElem_map, List.getElem_range]

theorem beta_t_getD (T : ℕ) (b1 b2 : ℝ) (t : ℕ) (ht : t ≤ T) :
    (beta_t T b1 b2).getD t 0 = betaF T b1 b2 t := by
  rw [beta_t_eq_map]
  exact getD_map_range _ _ _ (Nat.lt_succ_of_le ht)

theorem alpha_t_getD (T : ℕ) (b1 b2 : ℝ) (t : ℕ) (ht : t ≤ T) :
    (alpha_t T b1 b2).getD t 0 = alphaF T b1 b2 t := by
  rw [alpha_t_eq_map]
  exact getD_map_range _ _ _ (Nat.lt_succ_of_le ht)

theorem alphabar_t_getD (T : ℕ) (b1 b2 : ℝ) (t : ℕ) (hc : ValidConfig T b1 b2)
    (ht : t ≤ T) : (alphabar_t T b1 b2).getD t 0 = alphabarF T b1 b2 t := by
  rw [alphabar_t_eq_map T b1 b2 hc]
  exact getD_map_range _ _ _ (Nat.lt_succ_of_le ht)

theorem sqrtab_getD (T : ℕ) (b1 b2 : ℝ) (t : ℕ) (hc : ValidConfig T b1 b2)
    (ht : t ≤ T) : (sqrtab T b1 b2).getD t 0 = Real.sqrt (alphabarF T b1 b2 t) := by
  rw [sqrtab, alphabar_t_eq_map T b1 b2 hc, List.map_map]
  exact getD_map_range _ _ _ (Nat.lt_succ_of_le ht)

theorem sqrtmab_getD (T : ℕ) (b1 b2 : ℝ) (t : ℕ) (hc : ValidConfig T b1 b2)
    (ht : t ≤ T) :
    (sqrtmab T b1 b2).getD t 0 = Real.sqrt (1 - alphabarF T b1 b2 t) := by
  rw [sqrtmab, alphabar_t_eq_map T b1 b2 hc, List.map_map]
  exact getD_map_range _ _ _ (Nat.lt_succ_of_le ht)

theorem oneover_sqrta_getD (T : ℕ) (b1 b2 : ℝ) (t : ℕ) (ht : t ≤ T) :
    (oneover_sqrta T b1 b2).getD t 0 = 1 / Real.sqrt (alphaF T b1 b2 t) := by
  rw [oneover_sqrta, alpha_t_eq_map, List.map_map]
  exact getD_map_range _ _ _ (Nat.lt_succ_of_le ht)

theorem sigma_t_getD (T : ℕ) (b1 b2 : ℝ) (t : ℕ) (ht : t ≤ T) :
    (sigma_t T b1 b2).getD t 0 = Real.sqrt (betaF T b1 b2 t) := by
  rw [sigma_t, beta_t_eq_map, List.map_map]
  exact getD_map_range _ _ _ (Nat.lt_succ_of_le ht)

theorem mab_over_sqrtmab_inv_getD (T : ℕ) (b1 b2 : ℝ) (t : ℕ)
    (hc : ValidConfig T b1 b2) (ht : t ≤ T) :
    (mab_over_sqrtmab_inv T b1 b2).getD t 0 =
      (1 - alphaF T b1 b2 t) / Real.sqrt (1 - alphabarF T b1 b2 t) := by
  rw [mab_over_sqrtmab_inv, alpha_t_eq_map, sqrtmab, alphabar_t_eq_map T b1 b2 hc,
    List.map_map, zipWith_map_same]
  exact getD_map_range _ _ _ (Nat.lt_succ_of_le ht)

/-! Lengths of the schedule sequences. -/

theorem length_beta_t (T : ℕ) (b1 b2 : ℝ) : (beta_t T b1 b2).length = T + 1 := by
  simp [beta_t]

theorem length_alpha_t (T : ℕ) (b1 b2 : ℝ) : (alpha_t T b1 b2).length = T + 1 := by
  simp [alpha_t, length_beta_t]

theorem length_log_alpha_t (T : ℕ) (b1 b2 : ℝ) :
    (log_alpha_t T b1 b2).length = T + 1 := by
  simp [log_alpha_t, length_alpha_t]

theorem length_alphabar_t (T : ℕ) (b1 b2 : ℝ) :
    (alphabar_t T b1 b2).length = T + 1 := by
  simp [alphabar_t, length_cumsum, length_log_alpha_t]

theorem length_sqrtab (T : ℕ) (b1 b2 : ℝ) : (sqrtab T b1 b2).length = T + 1 := by
  simp [sqrtab, length_alphabar_t]

theorem length_sqrtmab (T : ℕ) (b1 b2 : ℝ) : (sqrtmab T b1 b2).length = T + 1 := by
  simp [sqrtmab, length_alphabar_t]

theorem length_oneover_sqrta (T : ℕ) (b1 b2 : ℝ) :
    (oneover_sqrta T b1 b2).length = T + 1 := by
  simp [oneover_sqrta, length_alpha_t]

theorem length_mab_over_sqrtmab_inv (T : ℕ) (b1 b2 : ℝ) :
    (mab_over_sqrtmab_inv T b1 b2).length = T + 1 := by
  simp [mab_over_sqrtmab_inv, List.length_zipWith, length_alpha_t, length_sqrtmab]

theorem length_sigma_t (T : ℕ) (b1 b2 : ℝ) : (sigma_t T b1 b2).length = T + 1 := by
  simp [sigma_t, length_beta_t]

/-! The DDPM operations.  A batch tensor is a function `ℕ → ℝ` from the batch
index (channel and spatial dimensions are flattened away: every operation
the claims touch is elementwise or per-batch-element broadcast).  The
denoising network `net` is the external collaborator `self.net`; its source
signature `UNet.forward(self, x, c)` takes the noisy batch and the condition
only.  Random draws (`torch.randn`, `torch.randint`) are passed in as
explicit arguments. -/

/-- A denoising network: maps (noisy batch, condition) to a predicted-noise
batch, exactly the `UNet.forward(self, x, c)` signature of the source. -/
def Net : Type := (ℕ → ℝ) → (ℕ → ℕ) → (ℕ → ℝ)

/-- The corruption line of `DDPM.forward`:
`x_t = sqrtab[_ts] * x + sqrtmab[_ts] * eps`, with `_ts` holding one
timestep per batch element, broadcast through the schedule tensors. -/
noncomputable def corrupt (T : ℕ) (b1 b2 : ℝ) (x0 : ℕ → ℝ) (ts : ℕ → ℕ)
    (noise : ℕ → ℝ) : ℕ → ℝ :=
  fun b =>
    (sqrtab T b1 b2).getD (ts b) 0 * x0 b + (sqrtmab T b1 b2).getD (ts b) 0 * noise b

/-- Specification of `torch.randint(lo, hi, (n,))`: each of the `n` drawn
entries lies in `[lo, hi)`. -/
def randintSpec (lo hi n : ℕ) (ts : ℕ → ℕ) : Prop :=
  ∀ b < n, lo ≤ ts b ∧ ts b < hi

/-- `F.mse_loss` over an `n`-element batch of scalars. -/
noncomputable def mse_loss (n : ℕ) (f g : ℕ → ℝ) : ℝ :=
  (((List.range n).map (fun b => (f b - g b) ^ 2)).sum) / (n : ℝ)

/-- `DDPM.forward(x, c)` with the random draws `_ts` and `eps` made explicit:
`x_t = sqrtab[_ts] * x + sqrtmab[_ts] * eps; return F.mse_loss(eps, self.net(x_t, c))`. -/
noncomputable def DDPM_forward (T : ℕ) (b1 b2 : ℝ) (net : Net) (n : ℕ)
    (x : ℕ → ℝ) (c : ℕ → ℕ) (ts : ℕ → ℕ) (eps : ℕ → ℝ) : ℝ :=
  mse_loss n eps (net (corrupt T b1 b2 x ts eps) c)

/-- One iteration body of the `DDPM.sample` loop at countdown index `i`:
`z = randn if i > 1 else 0; eps = net(x_i, cond);`
`x_i = oneover_sqrta[i] * (x_i - eps * mab_over_sqrtmab_inv[i]) + sigma_t[i] * z`.
`zs i` is the fresh standard-normal draw available at index `i`. -/
noncomputable def sampleStep (T : ℕ) (b1 b2 : ℝ) (net : Net) (cond : ℕ → ℕ)
    (zs : ℕ → ℕ → ℝ) (i : ℕ) (x : ℕ → ℝ) : ℕ → ℝ :=
  fun b =>
    (oneover_sqrta T b1 b2).getD i 0 *
        (x b - net x cond b * (mab_over_sqrtmab_inv T b1 b2).getD i 0) +
      (sigma_t T b1 b2).getD i 0 * (if 1 < i then zs i b else 0)

/-- The countdown loop `for i in range(T, 0, -1)` of `DDPM.sample`,
parameterized by the remaining iteration count (first argument). -/
noncomputable def sampleLoop (T : ℕ) (b1 b2 : ℝ) (net : Net) (cond : ℕ → ℕ)
    (zs : ℕ → ℕ → ℝ) : ℕ → (ℕ → ℝ) → (ℕ → ℝ)
  | 0, x => x
  | i + 1, x => sampleLoop T b1 b2 net cond zs i (sampleStep T b1 b2 net cond zs (i + 1) x)

/-- `DDPM.sample(n_sample, size)` with the initial draw `x0` and the per-step
draws `zs` made explicit: runs the countdown from `T` with condition
`torch.arange(n_sample)` (the identity on batch indices). -/
noncomputable def DDPM_sample (T : ℕ) (b1 b2 : ℝ) (net : Net) (zs : ℕ → ℕ → ℝ)
    (x0 : ℕ → ℝ) : ℕ → ℝ :=
  sampleLoop T b1 b2 net (fun b => b) zs T x0

/-- The countdown index sequence `range(T, 0, -1)` visited by the loop. -/
def countdown : ℕ → List ℕ
  | 0 => []
  | i + 1 => (i + 1) :: countdown i

/-- The arguments of the successive `self.net(x_i, torch.arange(n_sample))`
invocations made by the `DDPM.sample` loop: one `(x, cond)` pair per
iteration, in execution order. -/
noncomputable def sampleNetCalls (T : ℕ) (b1 b2 : ℝ) (net : Net) (cond : ℕ → ℕ)
    (zs : ℕ → ℕ → ℝ) : ℕ → (ℕ → ℝ) → List ((ℕ → ℝ) × (ℕ → ℕ))
  | 0, _ => []
  | i + 1, x =>
      (x, cond) :: sampleNetCalls T b1 b2 net cond zs i
        (sampleStep T b1 b2 net cond zs (i + 1) x)

/-- `F.one_hot(c, num_classes)` over an `n`-element batch of class indices:
returns the one-hot matrix, or fails (raises) when some entry is not below
`num_classes`. -/
def one_hot (num_classes n : ℕ) (c : ℕ → ℕ) : Option (ℕ → ℕ → ℕ) :=
  if ∀ b < n, c b < num_classes then
    some (fun b k => if c b = k then 1 else 0)
  else none

/-- The `DDPM.sample` loop with the `F.one_hot(c, num_classes=10)` gate of
`UNet.forward` made explicit: each iteration's `self.net` call one-hot
encodes the condition with 10 classes and fails if any entry is `≥ 10`. -/
noncomputable def sampleLoopChecked (T : ℕ) (b1 b2 : ℝ) (net : Net)
    (n_sample : ℕ) (zs : ℕ → ℕ → ℝ) : ℕ → (ℕ → ℝ) → Option (ℕ → ℝ)
  | 0, x => some x
  | i + 1, x =>
      match one_hot 10 n_sample (fun b => b) with
      | none => none
      | some _ =>
          sampleLoopChecked T b1 b2 net n_sample zs i
            (sampleStep T b1 b2 net (fun b => b) zs (i + 1) x)

/-- C4: for every clean batch `x0`, per-element timestep vector `ts` with
entries in `[1,T]`, and noise tensor, the forward corruption returns
`x_t = sqrt(alphabar_t) * x0 + sqrt(1 - alphabar_t) * noise` with the
schedule coefficients broadcast per batch element according to that
element's own `t`; with `noise = 0` it returns exactly
`sqrt(alphabar_t) * x0`. -/
theorem corrupt_closed_form (T : ℕ) (b1 b2 : ℝ) (x0 noise : ℕ → ℝ) (ts : ℕ → ℕ)
    (hc : ValidConfig T b1 b2) (hts : ∀ b, 1 ≤ ts b ∧ ts b ≤ T) :
    (∀ b, corrupt T b1 b2 x0 ts noise b =
        Real.sqrt (alphabarF T b1 b2 (ts b)) * x0 b +
          Real.sqrt (1 - alphabarF T b1 b2 (ts b)) * noise b) ∧
      (∀ b, corrupt T b1 b2 x0 ts (fun _ => 0) b =
        Real.sqrt (alphabarF T b1 b2 (ts b)) * x0 b) := by
  constructor
  · intro b
    simp only [corrupt]
    rw [sqrtab_getD T b1 b2 (ts b) hc (hts b).2, sqrtmab_getD T b1 b2 (ts b) hc (hts b).2]
  · intro b
    simp only [corrupt]
    rw [sqrtab_getD T b1 b2 (ts b) hc (hts b).2, sqrtmab_getD T b1 b2 (ts b) hc (hts b).2]
    ring

theorem corrupt_closed_form_witness :
    (ValidConfig 2 (1/4) (1/2) ∧ (∀ b : ℕ, 1 ≤ (fun _ : ℕ => 1) b ∧ (fun _ : ℕ => 1) b ≤ 2)) ∧
      corrupt 2 (1/4) (1/2) (fun _ => 1) (fun _ => 1) (fun _ => 0) 0 =
        Real.sqrt (alphabarF 2 (1/4) (1/2) ((fun _ : ℕ => 1) 0)) * 1 :=
  ⟨⟨by norm_num [ValidConfig], fun b => ⟨le_refl 1, by norm_num⟩⟩,
    (corrupt_closed_form 2 (1/4) (1/2) (fun _ => 1) (fun _ => 0) (fun _ => 1)
      (by norm_num [ValidConfig]) (fun b => ⟨le_refl 1, by norm_num⟩)).2 0⟩

/-- C5: for every `T ≥ 1` and `0 < beta_min < beta_max < 1`, all nine
schedule sequences have length `T + 1`, every entry of `alpha_t` lies
strictly in `(0,1)`, and `alphabar_t` is monotonically non-increasing in
`t`. -/
theorem schedule_wellformed (T : ℕ) (b1 b2 : ℝ) (hc : ValidConfig T b1 b2) :
    ((beta_t T b1 b2).length = T + 1 ∧ (alpha_t T b1 b2).length = T + 1 ∧
      (log_alpha_t T b1 b2).length = T + 1 ∧ (alphabar_t T b1 b2).length = T + 1 ∧
      (sqrtab T b1 b2).length = T + 1 ∧ (sqrtmab T b1 b2).length = T + 1 ∧
      (oneover_sqrta T b1 b2).length = T + 1 ∧
      (mab_over_sqrtmab_inv T b1 b2).length = T + 1 ∧
      (sigma_t T b1 b2).length = T + 1) ∧
    (∀ a ∈ alpha_t T b1 b2, 0 < a ∧ a < 1) ∧
    (∀ i j, i ≤ j → j ≤ T →
      (alphabar_t T b1 b2).getD j 0 ≤ (alphabar_t T b1 b2).getD i 0) := by
  refine ⟨⟨length_beta_t T b1 b2, length_alpha_t T b1 b2, length_log_alpha_t T b1 b2,
    length_alphabar_t T b1 b2, length_sqrtab T b1 b2, length_sqrtmab T b1 b2,
    length_oneover_sqrta T b1 b2, length_mab_over_sqrtmab_inv T b1 b2,
    length_sigma_t T b1 b2⟩, ?_, ?_⟩
  · intro a ha
    rw [alpha_t_eq_map] at ha
    obtain ⟨t, htmem, rfl⟩ := List.mem_map.mp ha
    exact alphaF_mem T b1 b2 t hc (Nat.lt_succ_iff.mp (List.mem_range.mp htmem))
  · intro i j hij hj
    rw [alphabar_t_getD T b1 b2 j hc hj, alphabar_t_getD T b1 b2 i hc (le_trans hij hj)]
    exact alphabarF_antitone T b1 b2 i j hc hij hj

theorem schedule_wellformed_witness :
    ValidConfig 2 (1/4) (1/2) ∧ (beta_t 2 (1/4) (1/2)).length = 2 + 1 :=
  ⟨by norm_num [ValidConfig],
    (schedule_wellformed 2 (1/4) (1/2) (by norm_num [ValidConfig])).1.1⟩

/-- C7: the forward corruption is algebraically invertible in the noise:
`(x_t - sqrtab[t] * x0) / sqrtmab[t]` recovers `noise` exactly for
`t ∈ [1,T]`, since `sqrtmab[t] = sqrt(1 - alphabar_t)` is nonzero there. -/
theorem corrupt_noise_recovery (T : ℕ) (b1 b2 : ℝ) (x0 noise : ℕ → ℝ) (ts : ℕ → ℕ)
    (hc : ValidConfig T b1 b2) (hts : ∀ b, 1 ≤ ts b ∧ ts b ≤ T) :
    ∀ b, (corrupt T b1 b2 x0 ts noise b - (sqrtab T b1 b2).getD (ts b) 0 * x0 b) /
        (sqrtmab T b1 b2).getD (ts b) 0 = noise b := by
  intro b
  have h2 := (hts b).2
  have hlt := alphabarF_lt_one T b1 b2 (ts b) hc h2
  have hpos : 0 < Real.sqrt (1 - alphabarF T b1 b2 (ts b)) :=
    Real.sqrt_pos.mpr (by linarith)
  simp only [corrupt]
  rw [sqrtmab_getD T b1 b2 (ts b) hc h2]
  field_simp

theorem corrupt_noise_recovery_witness :
    (ValidConfig 2 (1/4) (1/2) ∧ (∀ b : ℕ, 1 ≤ (fun _ : ℕ => 1) b ∧ (fun _ : ℕ => 1) b ≤ 2)) ∧
      (corrupt 2 (1/4) (1/2) (fun _ => 1) (fun _ => 1) (fun _ => 5) 0 -
          (sqrtab 2 (1/4) (1/2)).getD ((fun _ : ℕ => 1) 0) 0 * 1) /
        (sqrtmab 2 (1/4) (1/2)).getD ((fun _ : ℕ => 1) 0) 0 = 5 :=
  ⟨⟨by norm_num [ValidConfig], fun b => ⟨le_refl 1, by norm_num⟩⟩,
    corrupt_noise_recovery 2 (1/4) (1/2) (fun _ => 1) (fun _ => 5) (fun _ => 1)
      (by norm_num [ValidConfig]) (fun b => ⟨le_refl 1, by norm_num⟩) 0⟩

/-- C8: schedule construction is a pure, deterministic function of
`(T, beta_min, beta_max)`: identical inputs yield identical values for every
derived field, with no dependence on hidden state. -/
theorem mkSchedule_deterministic (T T' : ℕ) (b1 b2 b1' b2' : ℝ)
    (hT : T = T') (h1 : b1 = b1') (h2 : b2 = b2') :
    mkSchedule T b1 b2 = mkSchedule T' b1' b2' := by
  subst hT
  subst h1
  subst h2
  rfl

theorem mkSchedule_deterministic_witness :
    ((2 : ℕ) = 2 ∧ (1/4 : ℝ) = 1/4 ∧ (1/2 : ℝ) = 1/2) ∧
      mkSchedule 2 (1/4) (1/2) = mkSchedule 2 (1/4) (1/2) :=
  ⟨⟨rfl, rfl, rfl⟩, mkSchedule_deterministic 2 2 (1/4) (1/2) (1/4) (1/2) rfl rfl rfl⟩

/-- C1: at each countdown step `i ∈ [1,T]` the sampling loop updates the
state exactly as
`x ← (1/sqrt(alpha_i)) * (x - eps * (1 - alpha_i)/sqrt(1 - alphabar_i)) + sqrt(beta_i) * z`,
where `eps = net(x, cond)` and `z` is the fresh draw `zs i` for `i > 1` and
exactly zero when `i = 1`. -/
theorem sampleLoop_step_closed_form (T : ℕ) (b1 b2 : ℝ) (net : Net) (cond : ℕ → ℕ)
    (zs : ℕ → ℕ → ℝ) (i : ℕ) (x : ℕ → ℝ) (hc : ValidConfig T b1 b2)
    (h1 : 1 ≤ i) (hiT : i ≤ T) :
    sampleLoop T b1 b2 net cond zs i x =
      sampleLoop T b1 b2 net cond zs (i - 1)
        (fun b =>
          1 / Real.sqrt (alphaF T b1 b2 i) *
              (x b - net x cond b *
                ((1 - alphaF T b1 b2 i) / Real.sqrt (1 - alphabarF T b1 b2 i))) +
            Real.sqrt (betaF T b1 b2 i) * (if i = 1 then 0 else zs i b)) := by
  obtain ⟨j, rfl⟩ : ∃ j, i = j + 1 := ⟨i - 1, (Nat.succ_pred_eq_of_pos h1).symm⟩
  have hstep : sampleStep T b1 b2 net cond zs (j + 1) x =
      (fun b =>
        1 / Real.sqrt (alphaF T b1 b2 (j + 1)) *
            (x b - net x cond b *
              ((1 - alphaF T b1 b2 (j + 1)) / Real.sqrt (1 - alphabarF T b1 b2 (j + 1)))) +
          Real.sqrt (betaF T b1 b2 (j + 1)) * (if j + 1 = 1 then 0 else zs (j + 1) b)) := by
    funext b
    simp only [sampleStep]
    rw [oneover_sqrta_getD T b1 b2 (j + 1) hiT,
      mab_over_sqrtmab_inv_getD T b1 b2 (j + 1) hc hiT, sigma_t_getD T b1 b2 (j + 1) hiT]
    rcases Nat.eq_zero_or_pos j with hj | hj
    · subst hj
      norm_num
    · have hlt : 1 < j + 1 := by omega
      have hne : j + 1 ≠ 1 := by omega
      rw [if_pos hlt, if_neg hne]
  show sampleLoop T b1 b2 net cond zs j (sampleStep T b1 b2 net cond zs (j + 1) x) = _
  rw [hstep]
  rfl

theorem sampleLoop_step_closed_form_witness :
    (ValidConfig 2 (1/4) (1/2) ∧ 1 ≤ 2 ∧ 2 ≤ 2) ∧
      sampleLoop 2 (1/4) (1/2) (fun x _ => x) (fun b => b) (fun _ _ => 1) 2 (fun _ => 1) =
        sampleLoop 2 (1/4) (1/2) (fun x _ => x) (fun b => b) (fun _ _ => 1) (2 - 1)
          (fun b =>
            1 / Real.sqrt (alphaF 2 (1/4) (1/2) 2) *
                ((fun _ : ℕ => (1 : ℝ)) b - (fun x (_ : ℕ → ℕ) => x) (fun _ : ℕ => (1 : ℝ))
                    (fun b : ℕ => b) b *
                  ((1 - alphaF 2 (1/4) (1/2) 2) / Real.sqrt (1 - alphabarF 2 (1/4) (1/2) 2))) +
              Real.sqrt (betaF 2 (1/4) (1/2) 2) * (if (2 : ℕ) = 1 then 0 else (fun _ _ => (1 : ℝ)) 2 b)) :=
  ⟨⟨by norm_num [ValidConfig], by norm_num, le_refl 2⟩,
    sampleLoop_step_closed_form 2 (1/4) (1/2) (fun x _ => x) (fun b => b) (fun _ _ => 1) 2
      (fun _ => 1) (by norm_num [ValidConfig]) (by norm_num) (le_refl 2)⟩

theorem length_countdown (T : ℕ) : (countdown T).length = T := by
  induction T with
  | zero => rfl
  | succ T ih => simp [countdown, ih]

theorem mem_countdown (T : ℕ) : ∀ i ∈ countdown T, 1 ≤ i ∧ i ≤ T := by
  induction T with
  | zero => intro i hi; cases hi
  | succ T ih =>
      intro i hi
      rcases List.mem_cons.mp hi with h | h
      · omega
      · have := ih i h
        omega

theorem chain_countdown (T : ℕ) : List.Chain' (fun a b => b < a) (countdown T) := by
  induction T with
  | zero => exact List.chain'_nil
  | succ T ih =>
      rw [countdown, List.chain'_cons']
      refine ⟨?_, ih⟩
      intro y hy
      have hmem : y ∈ countdown T := List.mem_of_mem_head? hy
      have := mem_countdown T y hmem
      omega

theorem sampleLoop_eq_foldl (T : ℕ) (b1 b2 : ℝ) (net : Net) (cond : ℕ → ℕ)
    (zs : ℕ → ℕ → ℝ) : ∀ i (x : ℕ → ℝ),
    sampleLoop T b1 b2 net cond zs i x =
      List.foldl (fun y k => sampleStep T b1 b2 net cond zs k y) x (countdown i) := by
  intro i
  induction i with
  | zero => intro x; rfl
  | succ i ih =>
      intro x
      show sampleLoop T b1 b2 net cond zs i (sampleStep T b1 b2 net cond zs (i + 1) x) = _
      rw [ih]
      rfl

/-- C9: the reverse sampling loop terminates after exactly `T` iterations,
visiting the countdown indices `T, T-1, ..., 1` in strictly decreasing
order, and the run is exactly the fold of the per-index transition function
(which reads only the current tensor and the schedule entries at the current
index) over that index sequence. -/
theorem sample_terminates_countdown (T : ℕ) (b1 b2 : ℝ) (net : Net)
    (zs : ℕ → ℕ → ℝ) (n_sample : ℕ) (x0 : ℕ → ℝ) (hn : 1 ≤ n_sample) :
    (countdown T).length = T ∧
      List.Chain' (fun a b => b < a) (countdown T) ∧
      (∀ i ∈ countdown T, 1 ≤ i ∧ i ≤ T) ∧
      DDPM_sample T b1 b2 net zs x0 =
        List.foldl (fun y k => sampleStep T b1 b2 net (fun b => b) zs k y) x0
          (countdown T) :=
  ⟨length_countdown T, chain_countdown T, mem_countdown T,
    sampleLoop_eq_foldl T b1 b2 net (fun b => b) zs T x0⟩

theorem sample_terminates_countdown_witness :
    1 ≤ 1 ∧ (countdown 2).length = 2 :=
  ⟨le_refl 1,
    (sample_terminates_countdown 2 (1/4) (1/2) (fun x _ => x) (fun _ _ => 1) 1
      (fun _ => 1) (le_refl 1)).1⟩

/-- C2 counterexample: in a concrete two-step run of the sampling loop, the
non-batch argument handed to the denoiser at each iteration is the
`arange` condition (value `0` at batch index `0`) at both steps, while the
countdown indices visited are `2` then `1`: the argument list `[0, 0]`
differs from the timestep list `[2, 1]`, so the denoiser is not invoked
with the current timestep index. -/
theorem sample_timestep_not_passed_counterexample :
    ((sampleNetCalls 2 (1/4) (1/2) (fun x _ => x) (fun b => b) (fun _ _ => 0) 2
        (fun _ => 1)).map (fun call => call.2 0)) = [0, 0] ∧
      countdown 2 = [2, 1] ∧ ([0, 0] : List ℕ) ≠ [2, 1] :=
  ⟨rfl, rfl, by decide⟩

/-- C2 amended: every denoiser invocation of the sampling loop receives only
the current batch and the fixed condition (always `cond`, independent of the
countdown index), and the training forward pass feeds the denoiser only
`(x_t, c)`: the loss depends on the drawn timesteps only through `x_t`. -/
theorem sample_and_train_net_args (T : ℕ) (b1 b2 : ℝ) (net : Net) (cond : ℕ → ℕ)
    (zs : ℕ → ℕ → ℝ) (i : ℕ) (x : ℕ → ℝ) (n : ℕ) (xt : ℕ → ℝ) (c : ℕ → ℕ)
    (ts ts' : ℕ → ℕ) (eps : ℕ → ℝ)
    (hcorr : corrupt T b1 b2 xt ts eps = corrupt T b1 b2 xt ts' eps) :
    (sampleNetCalls T b1 b2 net cond zs i x).map Prod.snd = List.replicate i cond ∧
      DDPM_forward T b1 b2 net n xt c ts eps =
        DDPM_forward T b1 b2 net n xt c ts' eps := by
  constructor
  · induction i generalizing x with
    | zero => rfl
    | succ i ih => simp [sampleNetCalls, List.replicate_succ, ih]
  · simp only [DDPM_forward]
    rw [hcorr]

theorem sample_and_train_net_args_witness :
    corrupt 2 (1/4) (1/2) (fun _ => 1) (fun _ => 1) (fun _ => 0) =
        corrupt 2 (1/4) (1/2) (fun _ => 1) (fun _ => 1) (fun _ => 0) ∧
      ((sampleNetCalls 2 (1/4) (1/2) (fun x _ => x) (fun b => b) (fun _ _ => 0) 2
          (fun _ => 1)).map Prod.snd = List.replicate 2 (fun b : ℕ => b) ∧
        DDPM_forward 2 (1/4) (1/2) (fun x _ => x) 1 (fun _ => 1) (fun _ => 0)
            (fun _ => 1) (fun _ => 0) =
          DDPM_forward 2 (1/4) (1/2) (fun x _ => x) 1 (fun _ => 1) (fun _ => 0)
            (fun _ => 1) (fun _ => 0)) :=
  ⟨rfl, sample_and_train_net_args 2 (1/4) (1/2) (fun x _ => x) (fun b => b)
    (fun _ _ => 0) 2 (fun _ => 1) 1 (fun _ => 1) (fun _ => 0) (fun _ => 1)
    (fun _ => 1) (fun _ => 0) rfl⟩

/-- C3 counterexample: schedule construction with the invalid configuration
`beta_min = 3/2, beta_max = 2` (both outside `(0,1)`) does not fail: it
returns a full length-3 sequence whose first entry is the out-of-range
value `3/2`. -/
theorem mkSchedule_no_validation_counterexample :
    (mkSchedule 2 (3/2) 2).beta.length = 3 ∧
      (mkSchedule 2 (3/2) 2).beta.getD 0 0 = 3/2 ∧ ¬((3/2 : ℝ) < 1) := by
  refine ⟨length_beta_t 2 (3/2) 2, ?_, by norm_num⟩
  show (beta_t 2 (3/2) 2).getD 0 0 = 3/2
  rw [beta_t_getD 2 (3/2) 2 0 (by norm_num)]
  norm_num [betaF]

/-- C3 amended: schedule construction performs no validation at all: for
every input, valid or not, it completes and returns all nine sequences with
length `T + 1`; there is no `InvalidConfiguration` error path. -/
theorem mkSchedule_total (T : ℕ) (b1 b2 : ℝ) :
    (mkSchedule T b1 b2).beta.length = T + 1 ∧
      (mkSchedule T b1 b2).alpha.length = T + 1 ∧
      (mkSchedule T b1 b2).logAlpha.length = T + 1 ∧
      (mkSchedule T b1 b2).alphabar.length = T + 1 ∧
      (mkSchedule T b1 b2).sqab.length = T + 1 ∧
      (mkSchedule T b1 b2).sqmab.length = T + 1 ∧
      (mkSchedule T b1 b2).oneoverSqa.length = T + 1 ∧
      (mkSchedule T b1 b2).mabOverSqmab.length = T + 1 ∧
      (mkSchedule T b1 b2).sigma.length = T + 1 :=
  ⟨length_beta_t T b1 b2, length_alpha_t T b1 b2, length_log_alpha_t T b1 b2,
    length_alphabar_t T b1 b2, length_sqrtab T b1 b2, length_sqrtmab T b1 b2,
    length_oneover_sqrta T b1 b2, length_mab_over_sqrtmab_inv T b1 b2,
    length_sigma_t T b1 b2⟩

/-- C6 counterexample: with the valid configuration `T = 2, beta_min = 1/2,
beta_max = 3/4`, entry 0 of `alphabar_t` is `1/2` (namely
`alpha_0 = 1 - beta_min`), not `1`: the cumulative sum of `log(alpha_t)`
already includes index 0. -/
theorem alphabar_zero_counterexample :
    (alphabar_t 2 (1/2) (3/4)).getD 0 0 = 1/2 ∧ ((1 : ℝ)/2) ≠ 1 := by
  constructor
  · rw [alphabar_t_getD 2 (1/2) (3/4) 0 (by norm_num [ValidConfig]) (Nat.zero_le 2)]
    norm_num [alphabarF, List.range_succ, alphaF, betaF]
  · norm_num

/-- C6 amended: for every valid configuration the constructed schedule
satisfies `alphabar_0 = alpha_0 = 1 - beta_min` at index 0 (the cumulative
sum of `log(alpha_t)` then exponentiation includes index 0), and the
training-time timestep draw `randint(1, T+1)` yields indices in `[1, T]`
only. -/
theorem alphabar_zero_amended (T : ℕ) (b1 b2 : ℝ) (n : ℕ) (ts : ℕ → ℕ)
    (hc : ValidConfig T b1 b2) (hts : randintSpec 1 (T + 1) n ts) :
    (alphabar_t T b1 b2).getD 0 0 = 1 - b1 ∧ ∀ b < n, 1 ≤ ts b ∧ ts b ≤ T := by
  constructor
  · rw [alphabar_t_getD T b1 b2 0 hc (Nat.zero_le T)]
    norm_num [alphabarF, List.range_succ, alphaF, betaF]
  · intro b hb
    obtain ⟨h1, h2⟩ := hts b hb
    exact ⟨h1, Nat.lt_succ_iff.mp h2⟩

theorem alphabar_zero_amended_witness :
    (ValidConfig 2 (1/4) (1/2) ∧ randintSpec 1 3 1 (fun _ => 1)) ∧
      (alphabar_t 2 (1/4) (1/2)).getD 0 0 = 1 - 1/4 :=
  ⟨⟨by norm_num [ValidConfig], fun b _ => ⟨le_refl 1, by norm_num⟩⟩,
    (alphabar_zero_amended 2 (1/4) (1/2) 1 (fun _ => 1) (by norm_num [ValidConfig])
      (fun b _ => ⟨le_refl 1, by norm_num⟩)).1⟩

theorem one_hot_arange_none (n : ℕ) (h : 10 < n) :
    one_hot 10 n (fun b => b) = none := by
  rw [one_hot, if_neg]
  intro hall
  exact absurd (hall 10 h) (by norm_num)

theorem one_hot_arange_some (n : ℕ) (h : n ≤ 10) :
    one_hot 10 n (fun b => b) =
      some (fun b k => if b = k then 1 else 0) := by
  rw [one_hot, if_pos]
  intro b hb
  exact lt_of_lt_of_le hb h

theorem sampleLoopChecked_some (T : ℕ) (b1 b2 : ℝ) (net : Net) (n : ℕ)
    (zs : ℕ → ℕ → ℝ) (h : n ≤ 10) : ∀ i (x : ℕ → ℝ),
    sampleLoopChecked T b1 b2 net n zs i x =
      some (sampleLoop T b1 b2 net (fun b => b) zs i x) := by
  intro i
  induction i with
  | zero => intro x; rfl
  | succ i ih =>
      intro x
      simp only [sampleLoopChecked, one_hot_arange_some n h]
      exact ih _

/-- C10: for every call of the sampling procedure, the first denoiser
invocation one-hot encodes the condition `arange(n_sample)` with exactly 10
classes, so the run fails whenever `n_sample > 10` (some condition value is
`≥ 10`), and succeeds with the plain loop result whenever `n_sample ≤ 10`. -/
theorem sample_one_hot_gate (T : ℕ) (b1 b2 : ℝ) (net : Net) (n_sample : ℕ)
    (zs : ℕ → ℕ → ℝ) (x0 : ℕ → ℝ) (hT : 1 ≤ T) :
    (10 < n_sample → sampleLoopChecked T b1 b2 net n_sample zs T x0 = none) ∧
      (n_sample ≤ 10 → sampleLoopChecked T b1 b2 net n_sample zs T x0 =
        some (DDPM_sample T b1 b2 net zs x0)) := by
  constructor
  · intro h
    obtain ⟨j, rfl⟩ : ∃ j, T = j + 1 := ⟨T - 1, (Nat.succ_pred_eq_of_pos hT).symm⟩
    simp [sampleLoopChecked, one_hot_arange_none n_sample h]
  · intro h
    exact sampleLoopChecked_some T b1 b2 net n_sample zs h T x0

theorem sample_one_hot_gate_witness :
    1 ≤ 1 ∧ sampleLoopChecked 1 (1/4) (1/2) (fun x _ => x) 11 (fun _ _ => 0) 1
      (fun _ => 1) = none :=
  ⟨le_refl 1,
    (sample_one_hot_gate 1 (1/4) (1/2) (fun x _ => x) 11 (fun _ _ => 0)
      (fun _ => 1) (le_refl 1)).1 (by norm_num)⟩

end DGNN
